import Mathlib

/-!
Verification of the core logic of the firewall comparison tool (src/app.py).

The program is a pandas/streamlit script.  Its core consists of:
  * `extract_max_throughput` (app.py 8-12): on a string, collect every match of
    the regular expression `\d+\.?\d*` (Python `re.findall`, i.e. a
    left-to-right scan taking at each digit the greedy maximal match and
    continuing after it), convert each to a number and return the maximum;
    `None` when there is no match; non-strings pass through unchanged.
  * `parse_and_convert` (app.py 17-21): for each listed column that exists in
    the table, apply `extract_max_throughput` to every cell and then
    `pd.to_numeric(errors='coerce')`.
  * the automatic matching logic (app.py 174-199): a boolean mask is built by
    OR-ing, over the comparison columns present both in the source row and in
    the candidate table, the vectorized comparison `candidate column >= source
    value`; the mask starts as the Python scalar `False`, so when no column is
    effective the subscript `sophos_data[mask]` raises `KeyError: False`
    (pandas treats a scalar boolean key as a column label).  Survivors with a
    non-null value of "Firewall Throughput (Gbps)" are ranked by `idxmin`,
    which returns the first occurrence of the minimum.
  * the manual lookup (app.py 224-226): the first row whose `Model` column
    equals the chosen id.
  * `build_matching_table` (app.py 149-169): per-field ratio report.

Modeling conventions: machine floats are modeled by `ℚ`; `NaN`/`None` by
`RawValue.null`.  Pandas comparisons with `NaN` yield `False`, which `geB` and
`ltB` reproduce.  Comparisons between a string cell and a number would raise a
`TypeError` in pandas; the model returns `false` for them, and every theorem
about the matching engine restricts the relevant cells to normalized
(numeric-or-null) values, which is the only state in which the program runs
the engine.  `f"{x:.1f}"` is modeled by rounding the rational value half to
even, the rule Python uses on the exact value of the float.
-/

namespace FirewallSpec

/-- Raw field values as they occur in a loaded CSV cell: a number, a string,
or a missing value (`None`/`NaN`). -/
inductive RawValue where
  | num (q : ℚ)
  | rawStr (s : String)
  | null
  deriving DecidableEq

/-- True for values that `pd.notnull` accepts: numbers and strings; `NaN` and
`None` are null. -/
def notnullB : RawValue → Bool
  | RawValue.null => false
  | _ => true

/-- A value is in normalized form when it is a number or null (never a
residual string). -/
def isNormal : RawValue → Bool
  | RawValue.rawStr _ => false
  | _ => true

/-- Digit string to natural number, most significant digit first. -/
def digitsValN (l : List Char) : ℕ :=
  l.foldl (fun a c => 10 * a + (c.toNat - 48)) 0

/-- Digit string to number, most significant digit first. -/
def digitsVal (l : List Char) : ℚ := (digitsValN l : ℚ)

/-- Numeric value of one token of the form `digits` or `digits.digits`
(Python `float` on a `\d+\.?\d*` match): the integer part plus the
fractional digits scaled down by their count. -/
def tokenVal (t : List Char) : ℚ :=
  let ip := t.takeWhile Char.isDigit
  let r := t.dropWhile Char.isDigit
  if r.head? = some '.' then digitsVal ip + digitsVal r.tail / (10 : ℚ) ^ r.tail.length
  else digitsVal ip

/-- Fueled left-to-right scanner for `re.findall(r"\d+\.?\d*", s)`: at each
digit take the greedy match (all digits, then one optional dot followed by all
digits) and continue after it; other characters are skipped.  The fuel is only
a structural-termination device; `scanTokens` supplies enough of it. -/
def scanTokensF : ℕ → List Char → List (List Char)
  | 0, _ => []
  | _ + 1, [] => []
  | fuel + 1, c :: cs =>
    if c.isDigit then
      let ds := cs.takeWhile Char.isDigit
      let r1 := cs.dropWhile Char.isDigit
      if r1.head? = some '.' then
        (c :: ds ++ '.' :: r1.tail.takeWhile Char.isDigit) ::
          scanTokensF fuel (r1.tail.dropWhile Char.isDigit)
      else (c :: ds) :: scanTokensF fuel r1
    else scanTokensF fuel cs

/-- All matches of `\d+\.?\d*` in a character list, in scan order. -/
def scanTokens (l : List Char) : List (List Char) :=
  scanTokensF l.length l

/-- The list of numbers `[float(num) for num in re.findall(r"\d+\.?\d*", value)]`. -/
def pyFindallNums (s : String) : List ℚ :=
  (scanTokens s.data).map tokenVal

/-- Python `max` on two numbers. -/
def qmax (a b : ℚ) : ℚ := if a ≤ b then b else a

/-- Python `max` on a list; `none` on the empty list. -/
def listMax : List ℚ → Option ℚ
  | [] => none
  | x :: xs => some (xs.foldl qmax x)

/-- app.py 8-12: `extract_max_throughput`.  Strings become the maximum of the
numbers found in them, or null when none is found; other values pass through. -/
def extract_max_throughput : RawValue → RawValue
  | RawValue.rawStr s =>
    match listMax (pyFindallNums s) with
    | some m => RawValue.num m
    | none => RawValue.null
  | v => v

/-- app.py 21: `pd.to_numeric(errors='coerce')` restricted to the value domain
it is applied to.  It always runs on the output of `extract_max_throughput`,
which is never a string: numbers stay, everything else becomes null.  (A
numeric string would be parsed by pandas and a non-numeric one coerced to
`NaN`, but neither case is reachable in the program.) -/
def to_numeric_coerce : RawValue → RawValue
  | RawValue.num q => RawValue.num q
  | _ => RawValue.null

/-- The per-value normalizer of app.py 20-21: extraction followed by numeric
coercion. -/
def normalizeVal (v : RawValue) : RawValue :=
  to_numeric_coerce (extract_max_throughput v)

/-! Declarative reading of the extraction rule as the spec words it, used to
compare against the scanner: a candidate is any maximal substring matching
`\d+\.?\d*`, maximal meaning contained in no longer matching substring. -/

/-- Decides whether the characters form a word of `\d+\.?\d*`: one or more
digits, then optionally a dot followed by zero or more digits. -/
def restOk : List Char → Bool
  | [] => true
  | '.' :: ds => ds.all Char.isDigit
  | _ => false

/-- Membership in the token language `\d+\.?\d*`. -/
def matchesTok (t : List Char) : Bool :=
  !(t.takeWhile Char.isDigit).isEmpty && restOk (t.dropWhile Char.isDigit)

/-- The substring of `l` starting at `i` of length `len`. -/
def subAt (l : List Char) (i len : ℕ) : List Char :=
  (l.drop i).take len

/-- All index pairs `(i, len)` with both components at most `n`. -/
def pairsUpTo (n : ℕ) : List (ℕ × ℕ) :=
  (List.range (n + 1)).foldr
    (fun i acc => ((List.range (n + 1)).map (fun len => (i, len))) ++ acc) []

/-- All occurrences `(i, len)` of token-language substrings of `l`. -/
def occList (l : List Char) : List (ℕ × ℕ) :=
  (pairsUpTo l.length).filter
    (fun p => decide (p.1 + p.2 ≤ l.length) && matchesTok (subAt l p.1 p.2))

/-- Occurrence `p` lies strictly inside occurrence `q`. -/
def properlyInside (p q : ℕ × ℕ) : Bool :=
  !(p == q) && decide (q.1 ≤ p.1) && decide (p.1 + p.2 ≤ q.1 + q.2)

/-- The occurrences of token-language substrings contained in no longer one:
the "maximal substrings" of the specification, read literally. -/
def maximalOccs (l : List Char) : List (ℕ × ℕ) :=
  (occList l).filter (fun p => !((occList l).any (fun q => properlyInside p q)))

/-- Modeled from the spec wording of the number-extraction rule: the maximum
over the values of all maximal matching substrings. -/
def specExtractMax (s : String) : Option ℚ :=
  listMax ((maximalOccs s.data).map (fun p => tokenVal (subAt s.data p.1 p.2)))

/-! The tabular data model: a DataFrame is an ordered list of column names
plus rows of cells aligned positionally with the columns. -/

/-- A table: ordered column names and rows of raw cells, cell `i` of a row
belonging to column `i`. -/
structure DF where
  cols : List String
  rows : List (List RawValue)

/-- A single row with its own index, as a pandas `Series` (the source model's
row, whose index is the source table's column set). -/
abbrev SrcRow := List (String × RawValue)

/-- Index of the first column with the given name, pandas label lookup. -/
def colIdx : List String → String → Option ℕ
  | [], _ => none
  | x :: xs, c => if x = c then some 0 else (colIdx xs c).map (· + 1)

/-- The cell of row `r` in column `c` of `df`; null when the column is absent
or the row is too short. -/
def cellRaw (df : DF) (r : List RawValue) (c : String) : RawValue :=
  match colIdx df.cols c with
  | some i => r.getD i RawValue.null
  | none => RawValue.null

/-- Replace the element at position `i`, if any. -/
def applyAt : ℕ → (RawValue → RawValue) → List RawValue → List RawValue
  | _, _, [] => []
  | 0, f, v :: r => f v :: r
  | n + 1, f, v :: r => v :: applyAt n f r

/-- app.py 20/21, one assignment `df[c] = df[c].apply(f)`: map `f` over the
cells of column `c` (which the caller has checked to exist). -/
def applyCol (f : RawValue → RawValue) (c : String) (df : DF) : DF :=
  { cols := df.cols
    rows := df.rows.map (fun r =>
      match colIdx df.cols c with
      | some i => applyAt i f r
      | none => r) }

/-- One iteration of the loop of app.py 18-21: when column `c` exists, apply
the extraction pass and then the numeric-coercion pass to it. -/
def pacStep (df : DF) (c : String) : DF :=
  if df.cols.contains c then
    applyCol to_numeric_coerce c (applyCol extract_max_throughput c df)
  else df

/-- app.py 17-21: `parse_and_convert(df, col_list)`. -/
def parse_and_convert (df : DF) (col_list : List String) : DF :=
  col_list.foldl pacStep df

/-! The matching engine (app.py 174-199, automatic mode). -/

/-- Pandas `candidate >= source` on scalars: true only when both are numbers
and the candidate is at least the source; any null operand compares false.
(String operands would raise in pandas; the engine only ever compares
normalized cells.) -/
def geB : RawValue → RawValue → Bool
  | RawValue.num b, RawValue.num a => a ≤ b
  | _, _ => false

/-- Pandas `x < y` on scalars, same conventions as `geB`. -/
def ltB : RawValue → RawValue → Bool
  | RawValue.num a, RawValue.num b => a < b
  | _, _ => false

/-- The value `comp_row[c]` (null only stands for a stored `NaN`; the guard
`c in comp_row` is `colEffective`). -/
def fval (src : SrcRow) (c : String) : RawValue :=
  (List.lookup c src).getD RawValue.null

/-- The guard of app.py 178: the column takes part in the mask exactly when it
is in the source row's index and among the candidate table's columns. -/
def colEffective (src : SrcRow) (df : DF) (c : String) : Bool :=
  (List.lookup c src).isSome && df.cols.contains c

/-- One vectorized comparison `sophos_data[c] >= f_val`, at one row. -/
def colPred (src : SrcRow) (df : DF) (c : String) (r : List RawValue) : Bool :=
  geB (cellRaw df r c) (fval src c)

/-- The accumulating mask of app.py 176-181: it starts as the Python scalar
`False` and becomes a boolean vector at the first effective column. -/
inductive Mask where
  | scalarFalse
  | vec (bs : List Bool)

/-- `mask_any | series`: a scalar `False` is promoted to the series, two
series are OR-ed elementwise. -/
def maskOr : Mask → List Bool → Mask
  | Mask.scalarFalse, bs => Mask.vec bs
  | Mask.vec as, bs => Mask.vec (List.zipWith (fun a b => a || b) as bs)

/-- One loop iteration of app.py 177-181: skip the column when it is missing
on either side, otherwise OR the vectorized comparison into the mask. -/
def maskStep (src : SrcRow) (df : DF) (m : Mask) (c : String) : Mask :=
  if colEffective src df c then maskOr m (df.rows.map (colPred src df c)) else m

/-- app.py 176-181: the mask after the loop over the comparison columns. -/
def buildMask (useCols : List String) (src : SrcRow) (df : DF) : Mask :=
  useCols.foldl (maskStep src df) Mask.scalarFalse

/-- Row-level reading of the mask: a row survives when some comparison column
is effective and its comparison holds there. -/
def survives (useCols : List String) (src : SrcRow) (df : DF)
    (r : List RawValue) : Bool :=
  useCols.any (fun c => colEffective src df c && colPred src df c r)

/-- Entry `i` of the mask; the scalar `False` selects nothing. -/
def maskAt (m : Mask) (i : ℕ) : Bool :=
  match m with
  | Mask.scalarFalse => false
  | Mask.vec bs => bs.getD i false

/-- Boolean row selection `df[mask]`, order preserving. -/
def pickRows : List (List RawValue) → List Bool → List (List RawValue)
  | r :: rs, b :: bs => if b then r :: pickRows rs bs else pickRows rs bs
  | _, _ => []

/-- The ranking field of app.py 189-198. -/
def rankField : String := "Firewall Throughput (Gbps)"

/-- `sub["Firewall Throughput (Gbps)"].idxmin()` followed by `sub.loc`: the
first row attaining the minimum rank value, by a left fold with a strict
comparison. -/
def idxminPick (df : DF) (r0 : List RawValue) (rest : List (List RawValue)) :
    List RawValue :=
  rest.foldl
    (fun b x => if ltB (cellRaw df x rankField) (cellRaw df b rankField) then x else b)
    r0

/-- Outcome of the automatic logic.  `keyError` is the uncaught
`KeyError: False` that `sophos_data[mask_any]` raises when the mask is still
the scalar `False`; the three `no...` outcomes are the user-facing NoMatch
messages of app.py 185-196. -/
inductive AutoResult where
  | keyError
  | noSurvivor
  | noRankCol
  | noRankedSurvivor
  | found (r : List RawValue)
  deriving DecidableEq

/-- app.py 174-199: the automatic selection.  Filter by the accumulated mask,
drop survivors with a null rank field, return the first row attaining the
minimum rank value. -/
def selectBest (useCols : List String) (src : SrcRow) (df : DF) : AutoResult :=
  match buildMask useCols src df with
  | Mask.scalarFalse => AutoResult.keyError
  | Mask.vec bs =>
    match pickRows df.rows bs with
    | [] => AutoResult.noSurvivor
    | f0 :: fs =>
      if df.cols.contains rankField then
        match (f0 :: fs).filter (fun r => notnullB (cellRaw df r rankField)) with
        | [] => AutoResult.noRankedSurvivor
        | r0 :: rest => AutoResult.found (idxminPick df r0 rest)
      else AutoResult.noRankCol

/-- The survivors whose rank field is non-null, in original table order. -/
def rankedSurvivors (useCols : List String) (src : SrcRow) (df : DF) :
    List (List RawValue) :=
  (df.rows.filter (fun r => survives useCols src df r)).filter
    (fun r => notnullB (cellRaw df r rankField))

/-- The source value of a comparison field when it is known: present in the
row and numeric. -/
def srcQ (src : SrcRow) (c : String) : Option ℚ :=
  match List.lookup c src with
  | some (RawValue.num a) => some a
  | _ => none

/-- The candidate cell of a comparison field when it is known. -/
def cellQ (df : DF) (r : List RawValue) (c : String) : Option ℚ :=
  match cellRaw df r c with
  | RawValue.num b => some b
  | _ => none

/-! Manual mode (app.py 224-226). -/

/-- The model-identifier column. -/
def modelField : String := "Model"

/-- Elementwise `sophos_data["Model"] == chosen`: true only for an equal
string cell (pandas equality of a null or a number with a string is false). -/
def eqModelB : RawValue → String → Bool
  | RawValue.rawStr s, mid => s == mid
  | _, _ => false

/-- app.py 224-226: `sophos_data.loc[sophos_data["Model"] == chosen].iloc[0]`,
the first row whose Model equals the chosen id; `none` when there is no such
row (the script would raise there; it never falls back to automatic mode). -/
def selectManual (df : DF) (mid : String) : Option (List RawValue) :=
  if df.cols.contains modelField then
    df.rows.find? (fun r => eqModelB (cellRaw df r modelField) mid)
  else none

/-! The report builder (app.py 149-169). -/

/-- Rounding half to even, the rule behind Python's `format(x, '.1f')`. -/
def roundHalfEven (a : ℚ) : ℤ :=
  if a - (⌊a⌋ : ℚ) < (1 : ℚ) / 2 then ⌊a⌋
  else if (1 : ℚ) / 2 < a - (⌊a⌋ : ℚ) then ⌊a⌋ + 1
  else if ⌊a⌋ % 2 = 0 then ⌊a⌋ else ⌊a⌋ + 1

/-- `f"{q:.1f}"`: the value rendered with exactly one decimal digit. -/
def format1 (q : ℚ) : String :=
  let m := (roundHalfEven (|q| * 10)).toNat
  (if q < 0 then "-" else "") ++ toString (m / 10) ++ "." ++ toString (m % 10)

/-- `vendor_row.get(c, None)`: the value at a label, null when absent. -/
def rowGet (row : SrcRow) (c : String) : RawValue :=
  (List.lookup c row).getD RawValue.null

/-- Python `v != 0` on a cell (only evaluated after `pd.notnull(v)`). -/
def neq0B : RawValue → Bool
  | RawValue.num a => decide (a ≠ 0)
  | _ => true

/-- The numeric content of a cell for the ratio; the default is never used
under the guard on normalized cells. -/
def asQ : RawValue → ℚ
  | RawValue.num a => a
  | _ => 0

/-- app.py 154-158: the "Matching (%)" cell for one field. -/
def ratioCell (v s : RawValue) : String :=
  if notnullB v && neq0B v && notnullB s then format1 (asQ s / asQ v * 100) ++ "%"
  else "N/A"

/-- app.py 149-169: `build_matching_table`, as the ordered list of per-field
entries (field, vendor value, sophos value, ratio display). -/
def build_matching_table (relevant_cols : List String)
    (vendor_row sophos_row : SrcRow) :
    List (String × RawValue × RawValue × String) :=
  relevant_cols.map (fun c =>
    (c, rowGet vendor_row c, rowGet sophos_row c,
      ratioCell (rowGet vendor_row c) (rowGet sophos_row c)))

/-! Auxiliary list lemmas. -/

theorem dropWhile_length_le {α : Type} (p : α → Bool) :
    ∀ l : List α, (l.dropWhile p).length ≤ l.length := by
  intro l
  induction l with
  | nil => simp [List.dropWhile]
  | cons a l ih =>
    rw [List.dropWhile_cons]
    split
    · exact Nat.le_succ_of_le ih
    · exact Nat.le_refl _

theorem contains_iff_mem (l : List String) (c : String) :
    l.contains c = true ↔ c ∈ l := by
  simp [List.contains, List.elem_iff]

theorem takeWhile_of_all {α : Type} (p : α → Bool) :
    ∀ l : List α, (∀ x ∈ l, p x = true) → l.takeWhile p = l := by
  intro l
  induction l with
  | nil => intro _; rfl
  | cons a l ih =>
    intro h
    rw [List.takeWhile_cons, if_pos (h a (List.mem_cons_self a l))]
    rw [ih (fun x hx => h x (List.mem_cons_of_mem a hx))]

theorem takeWhile_append_of_all {α : Type} (p : α → Bool) :
    ∀ (ds l : List α), (∀ x ∈ ds, p x = true) →
      (ds ++ l).takeWhile p = ds ++ l.takeWhile p := by
  intro ds
  induction ds with
  | nil => intro l _; rfl
  | cons a ds ih =>
    intro l h
    rw [List.cons_append, List.takeWhile_cons, if_pos (h a (List.mem_cons_self a ds))]
    rw [ih l (fun x hx => h x (List.mem_cons_of_mem a hx)), List.cons_append]

theorem dropWhile_append_of_all {α : Type} (p : α → Bool) :
    ∀ (ds l : List α), (∀ x ∈ ds, p x = true) →
      (ds ++ l).dropWhile p = l.dropWhile p := by
  intro ds
  induction ds with
  | nil => intro l _; rfl
  | cons a ds ih =>
    intro l h
    rw [List.cons_append, List.dropWhile_cons, if_pos (h a (List.mem_cons_self a ds))]
    exact ih l (fun x hx => h x (List.mem_cons_of_mem a hx))

theorem dropWhile_nil_of_all {α : Type} (p : α → Bool) (l : List α)
    (h : ∀ x ∈ l, p x = true) : l.dropWhile p = [] := by
  have := dropWhile_append_of_all p l [] h
  simpa using this

/-! Lemmas on the maximum of a list. -/

theorem foldl_max_le_init : ∀ (xs : List ℚ) (a : ℚ), a ≤ xs.foldl max a := by
  intro xs
  induction xs with
  | nil => intro a; exact le_refl a
  | cons x xs ih =>
    intro a
    exact le_trans (le_max_left a x) (ih (max a x))

theorem foldl_max_mem : ∀ (xs : List ℚ) (a : ℚ),
    xs.foldl max a = a ∨ xs.foldl max a ∈ xs := by
  intro xs
  induction xs with
  | nil => intro a; exact Or.inl rfl
  | cons x xs ih =>
    intro a
    rcases ih (max a x) with h | h
    · rcases max_choice a x with hm | hm
      · exact Or.inl (by rw [List.foldl_cons, h, hm])
      · exact Or.inr (by rw [List.foldl_cons, h, hm]; exact List.mem_cons_self x xs)
    · exact Or.inr (List.mem_cons_of_mem x h)

theorem foldl_max_ge_mem : ∀ (xs : List ℚ) (a : ℚ), ∀ x ∈ xs, x ≤ xs.foldl max a := by
  intro xs
  induction xs with
  | nil => intro a x hx; cases hx
  | cons y xs ih =>
    intro a x hx
    rcases List.mem_cons.mp hx with rfl | hx
    · exact le_trans (le_max_right a x) (foldl_max_le_init xs (max a x))
    · exact ih (max a y) x hx

theorem qmax_eq_max (a b : ℚ) : qmax a b = max a b := by
  rw [max_def]; rfl

theorem listMax_spec (l : List ℚ) (M : ℚ) (h : listMax l = some M) :
    M ∈ l ∧ ∀ x ∈ l, x ≤ M := by
  cases l with
  | nil => cases h
  | cons x xs =>
    have hqm : qmax = max := funext fun a => funext fun b => qmax_eq_max a b
    have hM : M = xs.foldl max x := by
      have := h.symm
      simp only [listMax, Option.some_inj] at this
      rw [← hqm]
      exact this
    subst hM
    refine ⟨?_, ?_⟩
    · rcases foldl_max_mem xs x with h' | h'
      · rw [h']; exact List.mem_cons_self x xs
      · exact List.mem_cons_of_mem x h'
    · intro y hy
      rcases List.mem_cons.mp hy with rfl | hy
      · exact foldl_max_le_init xs y
      · exact foldl_max_ge_mem xs x y hy

/-! Lemmas on the token scanner. -/

theorem matchesTok_digits (c : Char) (ds : List Char) (hc : c.isDigit = true)
    (hds : ∀ x ∈ ds, Char.isDigit x = true) : matchesTok (c :: ds) = true := by
  unfold matchesTok
  rw [List.takeWhile_cons, if_pos hc, List.dropWhile_cons, if_pos hc]
  rw [takeWhile_of_all Char.isDigit ds hds, dropWhile_nil_of_all Char.isDigit ds hds]
  simp [restOk]

theorem matchesTok_dot (c : Char) (ds ds2 : List Char) (hc : c.isDigit = true)
    (hds : ∀ x ∈ ds, Char.isDigit x = true)
    (hds2 : ∀ x ∈ ds2, Char.isDigit x = true) :
    matchesTok ((c :: ds) ++ '.' :: ds2) = true := by
  have hdotc : Char.isDigit '.' = false := by decide
  unfold matchesTok
  rw [List.cons_append, List.takeWhile_cons, if_pos hc, List.dropWhile_cons, if_pos hc]
  rw [takeWhile_append_of_all Char.isDigit ds _ hds, dropWhile_append_of_all Char.isDigit ds _ hds]
  rw [List.takeWhile_cons, if_neg (by simp [hdotc]), List.dropWhile_cons, if_neg (by simp [hdotc])]
  simp [restOk, List.all_eq_true]
  exact hds2

theorem scanTokensF_sound : ∀ (fuel : ℕ) (l : List Char), l.length ≤ fuel →
    ∀ t ∈ scanTokensF fuel l, matchesTok t = true ∧ ∃ u v, u ++ t ++ v = l := by
  intro fuel
  induction fuel with
  | zero => intro l _ t ht; simp [scanTokensF] at ht
  | succ n ih =>
    intro l hl t ht
    cases l with
    | nil => simp [scanTokensF] at ht
    | cons c cs =>
      simp only [scanTokensF] at ht
      by_cases hc : c.isDigit
      · rw [if_pos hc] at ht
        have hsplit := List.takeWhile_append_dropWhile (p := Char.isDigit) (l := cs)
        have hdw := dropWhile_length_le Char.isDigit cs
        have hcs : cs.length ≤ n := by simpa using hl
        by_cases hdot : (cs.dropWhile Char.isDigit).head? = some '.'
        · rw [if_pos hdot] at ht
          obtain ⟨t2, hr1⟩ : ∃ t2, cs.dropWhile Char.isDigit = '.' :: t2 := by
            cases h' : cs.dropWhile Char.isDigit with
            | nil => rw [h'] at hdot; cases hdot
            | cons a t2 =>
              rw [h'] at hdot
              simp only [List.head?] at hdot
              exact ⟨t2, by rw [Option.some_inj.mp hdot]⟩
          have htail : (cs.dropWhile Char.isDigit).tail = t2 := by rw [hr1]; rfl
          rw [htail] at ht
          have ht2 : t2.length + 1 ≤ cs.length := by
            have := hdw; rw [hr1] at this; simpa using this
          have hsplit2 := List.takeWhile_append_dropWhile (p := Char.isDigit) (l := t2)
          have hfull : c :: cs =
              ((c :: cs.takeWhile Char.isDigit) ++ '.' :: t2.takeWhile Char.isDigit) ++
                t2.dropWhile Char.isDigit := by
            conv_lhs => rw [← hsplit, hr1, ← hsplit2]
            simp [List.append_assoc]
          rcases List.mem_cons.mp ht with rfl | ht'
          · refine ⟨matchesTok_dot c _ _ hc (fun x hx => List.mem_takeWhile_imp hx)
              (fun x hx => List.mem_takeWhile_imp hx), [], t2.dropWhile Char.isDigit, ?_⟩
            simpa using hfull.symm
          · have hlen : (t2.dropWhile Char.isDigit).length ≤ n := by
              have := dropWhile_length_le Char.isDigit t2
              omega
            obtain ⟨hm, u, v, huv⟩ := ih (t2.dropWhile Char.isDigit) hlen t ht'
            refine ⟨hm, ((c :: cs.takeWhile Char.isDigit) ++ '.' :: t2.takeWhile Char.isDigit) ++ u, v, ?_⟩
            rw [hfull, ← huv]
            simp [List.append_assoc]
        · rw [if_neg hdot] at ht
          rcases List.mem_cons.mp ht with rfl | ht'
          · refine ⟨matchesTok_digits c _ hc (fun x hx => List.mem_takeWhile_imp hx),
              [], cs.dropWhile Char.isDigit, ?_⟩
            simp [hsplit]
          · have hlen : (cs.dropWhile Char.isDigit).length ≤ n := le_trans hdw hcs
            obtain ⟨hm, u, v, huv⟩ := ih (cs.dropWhile Char.isDigit) hlen t ht'
            refine ⟨hm, (c :: cs.takeWhile Char.isDigit) ++ u, v, ?_⟩
            conv_rhs => rw [← hsplit, ← huv]
            simp [List.append_assoc]
      · rw [if_neg hc] at ht
        have hlen : cs.length ≤ n := by simpa using hl
        obtain ⟨hm, u, v, huv⟩ := ih cs hlen t ht
        exact ⟨hm, c :: u, v, by rw [← huv]; rfl⟩

theorem tokenVal_digits (t : List Char) (h : ∀ x ∈ t, Char.isDigit x = true) :
    tokenVal t = digitsVal t := by
  unfold tokenVal
  rw [takeWhile_of_all Char.isDigit t h, dropWhile_nil_of_all Char.isDigit t h]
  simp

theorem tokenVal_dot (ds ds2 : List Char) (h : ∀ x ∈ ds, Char.isDigit x = true) :
    tokenVal (ds ++ '.' :: ds2) =
      digitsVal ds + digitsVal ds2 / (10 : ℚ) ^ ds2.length := by
  have hdotc : Char.isDigit '.' = false := by decide
  have htw : List.takeWhile Char.isDigit (ds ++ '.' :: ds2) = ds := by
    rw [takeWhile_append_of_all Char.isDigit ds _ h, List.takeWhile_cons,
      if_neg (by simp [hdotc]), List.append_nil]
  have hdw : List.dropWhile Char.isDigit (ds ++ '.' :: ds2) = '.' :: ds2 := by
    rw [dropWhile_append_of_all Char.isDigit ds _ h, List.dropWhile_cons,
      if_neg (by simp [hdotc])]
  unfold tokenVal
  rw [htw, hdw]
  simp

/-- C7: normalization is idempotent.  For every raw field value `x`,
`normalize(normalize(x)) = normalize(x)`, where `normalize` is the per-value
pipeline of `parse_and_convert` (app.py 20-21): `extract_max_throughput`
followed by `pd.to_numeric(errors='coerce')`. -/
theorem c7_normalize_idempotent :
    ∀ v : RawValue, normalizeVal (normalizeVal v) = normalizeVal v := by
  intro v
  cases v with
  | num q => rfl
  | null => rfl
  | rawStr s =>
    cases h : listMax (pyFindallNums s) with
    | none => simp [normalizeVal, extract_max_throughput, to_numeric_coerce, h]
    | some m => simp [normalizeVal, extract_max_throughput, to_numeric_coerce, h]

/-- C3 counterexample: on the input string "1.9.2" the code extracts the
non-overlapping scan matches "1.9" and "2" (`re.findall`) and normalizes to
2.0, but "9.2" is also a maximal substring matching the decimal pattern
(value 9.2), so the maximum over all maximal matching substrings is 9.2, not
the code's 2.0.  The claim's equation "normalized value = maximum of all
maximal matching substrings" therefore fails on the code. -/
theorem c3_counterexample :
    extract_max_throughput (RawValue.rawStr ("1.9.2")) = RawValue.num 2 ∧
    specExtractMax ("1.9.2") = some ((46 : ℚ) / 5) ∧
    specExtractMax ("1.9.2") ≠ some 2 := by
  have tv19 : tokenVal ['1', '.', '9'] = 19 / 10 := by
    have h := tokenVal_dot ['1'] ['9'] (by decide)
    rw [show ((['1'] ++ '.' :: ['9']) : List Char) = ['1', '.', '9'] from rfl] at h
    rw [h, digitsVal, digitsVal, show digitsValN ['1'] = 1 from by decide,
      show digitsValN ['9'] = 9 from by decide]
    norm_num
  have tv92 : tokenVal ['9', '.', '2'] = 46 / 5 := by
    have h := tokenVal_dot ['9'] ['2'] (by decide)
    rw [show ((['9'] ++ '.' :: ['2']) : List Char) = ['9', '.', '2'] from rfl] at h
    rw [h, digitsVal, digitsVal, show digitsValN ['9'] = 9 from by decide,
      show digitsValN ['2'] = 2 from by decide]
    norm_num
  have tv2 : tokenVal ['2'] = 2 := by
    rw [tokenVal_digits ['2'] (by decide), digitsVal, show digitsValN ['2'] = 2 from by decide]
    norm_num
  have hsc : scanTokens (("1.9.2").data) = [['1', '.', '9'], ['2']] := by decide
  have hpf : pyFindallNums ("1.9.2") = [19 / 10, 2] := by
    rw [pyFindallNums, hsc, List.map_cons, List.map_cons, List.map_nil, tv19, tv2]
  have hlm : listMax [(19 : ℚ) / 10, 2] = some 2 := by
    simp only [listMax, List.foldl_cons, List.foldl_nil, qmax_eq_max, Option.some_inj]
    norm_num [max_def]
  have hcode : extract_max_throughput (RawValue.rawStr ("1.9.2")) = RawValue.num 2 := by
    simp only [extract_max_throughput, hpf, hlm]
  have hmx : maximalOccs (("1.9.2").data) = [(0, 3), (2, 3)] := by decide
  have hsub1 : subAt (("1.9.2").data) 0 3 = ['1', '.', '9'] := by decide
  have hsub2 : subAt (("1.9.2").data) 2 3 = ['9', '.', '2'] := by decide
  have hspec : specExtractMax ("1.9.2") = some ((46 : ℚ) / 5) := by
    rw [specExtractMax, hmx]
    simp only [List.map_cons, List.map_nil, hsub1, hsub2, tv19, tv92]
    simp only [listMax, List.foldl_cons, List.foldl_nil, qmax_eq_max, Option.some_inj]
    norm_num [max_def]
  refine ⟨hcode, hspec, ?_⟩
  rw [hspec]
  simp only [ne_eq, Option.some.injEq]
  norm_num

/-- C3 (amended): the extracted candidates are the matches of the
left-to-right non-overlapping (maximal-munch) scan for `\d+\.?\d*`; every
extracted token is a substring of the input matching that pattern; the
normalized value is the maximum of the extracted numbers when any exist and
the unknown marker (null) when none do; and "39 / 39 / 26.5" normalizes
to 39. -/
theorem c3_extraction :
    (∀ s : String, ∀ t ∈ scanTokens s.data,
        matchesTok t = true ∧ ∃ u v, u ++ t ++ v = s.data) ∧
    (∀ s : String,
        (pyFindallNums s = [] →
          extract_max_throughput (RawValue.rawStr s) = RawValue.null) ∧
        ∀ M : ℚ, listMax (pyFindallNums s) = some M →
          extract_max_throughput (RawValue.rawStr s) = RawValue.num M ∧
          M ∈ pyFindallNums s ∧ ∀ x ∈ pyFindallNums s, x ≤ M) ∧
    extract_max_throughput (RawValue.rawStr ("39 / 39 / 26.5")) = RawValue.num 39 := by
  refine ⟨?_, ?_, ?_⟩
  · intro s t ht
    exact scanTokensF_sound s.data.length s.data (le_refl _) t ht
  · intro s
    constructor
    · intro h
      simp [extract_max_throughput, h, listMax]
    · intro M hM
      obtain ⟨hmem, hle⟩ := listMax_spec (pyFindallNums s) M hM
      exact ⟨by simp [extract_max_throughput, hM], hmem, hle⟩
  · have tv39 : tokenVal ['3', '9'] = 39 := by
      rw [tokenVal_digits ['3', '9'] (by decide), digitsVal,
        show digitsValN ['3', '9'] = 39 from by decide]
      norm_num
    have tv265 : tokenVal ['2', '6', '.', '5'] = 53 / 2 := by
      have h := tokenVal_dot ['2', '6'] ['5'] (by decide)
      rw [show ((['2', '6'] ++ '.' :: ['5']) : List Char) = ['2', '6', '.', '5'] from rfl] at h
      rw [h, digitsVal, digitsVal, show digitsValN ['2', '6'] = 26 from by decide,
        show digitsValN ['5'] = 5 from by decide]
      norm_num
    have hsc : scanTokens (("39 / 39 / 26.5").data) =
        [['3', '9'], ['3', '9'], ['2', '6', '.', '5']] := by decide
    have hpf : pyFindallNums ("39 / 39 / 26.5") = [39, 39, 53 / 2] := by
      rw [pyFindallNums, hsc, List.map_cons, List.map_cons, List.map_cons, List.map_nil,
        tv39, tv265]
    have hlm : listMax [(39 : ℚ), 39, 53 / 2] = some 39 := by
      simp only [listMax, List.foldl_cons, List.foldl_nil, qmax_eq_max, Option.some_inj]
      norm_num [max_def]
    simp only [extract_max_throughput, hpf, hlm]

/-- C3 witness: a string with no digit normalizes to the unknown marker,
obtained by instantiating the amended extraction theorem. -/
theorem c3_witness :
    extract_max_throughput (RawValue.rawStr ("no digits here")) = RawValue.null :=
  (c3_extraction.2.1 ("no digits here")).1 (by decide)

/-! Lemmas on the column index and cells. -/

theorem colIdx_get : ∀ (cols : List String) (c : String) (i : ℕ),
    colIdx cols c = some i → cols.get? i = some c := by
  intro cols
  induction cols with
  | nil => intro c i h; cases h
  | cons x xs ih =>
    intro c i h
    rw [colIdx] at h
    split at h
    · cases h
      simp [*]
    · rcases Option.map_eq_some'.mp h with ⟨j, hj, rfl⟩
      simpa using ih c j hj

theorem colIdx_eq_none (cols : List String) (c : String) :
    colIdx cols c = none ↔ c ∉ cols := by
  induction cols with
  | nil => simp [colIdx]
  | cons x xs ih =>
    rw [colIdx]
    by_cases hx : x = c
    · subst hx
      simp
    · simp only [if_neg hx, Option.map_eq_none', ih, List.mem_cons]
      constructor
      · intro h hc
        rcases hc with rfl | hc
        · exact hx rfl
        · exact h hc
      · intro h hc
        exact h (Or.inr hc)

theorem cellRaw_of_not_contains (df : DF) (r : List RawValue) (c : String)
    (h : df.cols.contains c = false) : cellRaw df r c = RawValue.null := by
  rw [cellRaw]
  have hn : colIdx df.cols c = none := by
    rw [colIdx_eq_none]
    intro hmem
    rw [(contains_iff_mem df.cols c).mpr hmem] at h
    cases h
  rw [hn]

/-! Lemmas on the mask accumulation. -/

theorem zipOr_map_false : ∀ (bs : List Bool) (l : List (List RawValue)),
    bs.length = l.length →
    List.zipWith (fun a b => a || b) bs (l.map fun _ => false) = bs := by
  intro bs
  induction bs with
  | nil => intro l _; simp
  | cons b bs ih =>
    intro l h
    cases l with
    | nil => cases h
    | cons r l =>
      simp only [List.map_cons, List.zipWith_cons_cons, Bool.or_false]
      rw [ih l (by simpa using h)]

theorem zipOr_assoc : ∀ (bs : List Bool) (l : List (List RawValue))
    (f g : List RawValue → Bool),
    List.zipWith (fun a b => a || b) (List.zipWith (fun a b => a || b) bs (l.map f)) (l.map g) =
      List.zipWith (fun a b => a || b) bs (l.map fun r => f r || g r) := by
  intro bs
  induction bs with
  | nil => intro l f g; simp
  | cons b bs ih =>
    intro l f g
    cases l with
    | nil => simp
    | cons r l =>
      simp only [List.map_cons, List.zipWith_cons_cons, Bool.or_assoc]
      rw [ih l f g]

theorem zipOr_maps : ∀ (l : List (List RawValue)) (f g : List RawValue → Bool),
    List.zipWith (fun a b => a || b) (l.map f) (l.map g) = l.map fun r => f r || g r := by
  intro l
  induction l with
  | nil => intro f g; rfl
  | cons r l ih =>
    intro f g
    simp only [List.map_cons, List.zipWith_cons_cons]
    rw [ih f g]

theorem survives_cons_effective (src : SrcRow) (df : DF) (c : String) (L : List String)
    (hc : colEffective src df c = true) (r : List RawValue) :
    survives (c :: L) src df r = (colPred src df c r || survives L src df r) := by
  simp [survives, List.any_cons, hc]

theorem survives_cons_ineffective (src : SrcRow) (df : DF) (c : String) (L : List String)
    (hc : ¬colEffective src df c = true) (r : List RawValue) :
    survives (c :: L) src df r = survives L src df r := by
  have hcf : colEffective src df c = false := by
    cases h' : colEffective src df c
    · rfl
    · exact absurd h' hc
  simp [survives, List.any_cons, hcf]

theorem buildMask_vec (src : SrcRow) (df : DF) : ∀ (L : List String) (bs : List Bool),
    bs.length = df.rows.length →
    L.foldl (maskStep src df) (Mask.vec bs) =
      Mask.vec (List.zipWith (fun a b => a || b) bs
        (df.rows.map fun r => survives L src df r)) := by
  intro L
  induction L with
  | nil =>
    intro bs h
    rw [List.foldl_nil]
    rw [show (df.rows.map fun r => survives [] src df r) = df.rows.map fun _ => false from by
      simp [survives]]
    rw [zipOr_map_false bs df.rows (by simpa using h)]
  | cons c L ih =>
    intro bs h
    rw [List.foldl_cons]
    by_cases hc : colEffective src df c = true
    · rw [maskStep, if_pos hc]
      rw [show maskOr (Mask.vec bs) (df.rows.map fun r => colPred src df c r) =
        Mask.vec (List.zipWith (fun a b => a || b) bs
          (df.rows.map fun r => colPred src df c r)) from rfl]
      rw [ih _ (by simp [h])]
      rw [zipOr_assoc]
      have hm : (df.rows.map fun r => colPred src df c r || survives L src df r) =
          df.rows.map fun r => survives (c :: L) src df r :=
        List.map_congr_left fun r _ => (survives_cons_effective src df c L hc r).symm
      rw [hm]
    · rw [maskStep, if_neg hc, ih bs h]
      have hm : (df.rows.map fun r => survives L src df r) =
          df.rows.map fun r => survives (c :: L) src df r :=
        List.map_congr_left fun r _ => (survives_cons_ineffective src df c L hc r).symm
      rw [hm]

theorem buildMask_scalar (useCols : List String) (src : SrcRow) (df : DF)
    (h : useCols.any (fun c => colEffective src df c) = false) :
    buildMask useCols src df = Mask.scalarFalse := by
  induction useCols with
  | nil => rfl
  | cons c L ih =>
    rw [List.any_cons, Bool.or_eq_false_iff] at h
    rw [buildMask, List.foldl_cons, maskStep, if_neg (by simp [h.1])]
    exact ih h.2

theorem buildMask_eq_vec (useCols : List String) (src : SrcRow) (df : DF)
    (h : useCols.any (fun c => colEffective src df c) = true) :
    buildMask useCols src df =
      Mask.vec (df.rows.map fun r => survives useCols src df r) := by
  induction useCols with
  | nil => cases h
  | cons c L ih =>
    rw [buildMask, List.foldl_cons]
    by_cases hc : colEffective src df c = true
    · rw [maskStep, if_pos hc]
      rw [show maskOr Mask.scalarFalse (df.rows.map fun r => colPred src df c r) =
        Mask.vec (df.rows.map fun r => colPred src df c r) from rfl]
      rw [buildMask_vec src df L _ (by simp)]
      rw [zipOr_maps]
      have hm : (df.rows.map fun r => colPred src df c r || survives L src df r) =
          df.rows.map fun r => survives (c :: L) src df r :=
        List.map_congr_left fun r _ => (survives_cons_effective src df c L hc r).symm
      rw [hm]
    · rw [maskStep, if_neg hc]
      have hcf : colEffective src df c = false := by
        cases h' : colEffective src df c
        · rfl
        · exact absurd h' hc
      have h' : L.any (fun c => colEffective src df c) = true := by
        rw [List.any_cons, hcf, Bool.false_or] at h
        exact h
      rw [show L.foldl (maskStep src df) Mask.scalarFalse = buildMask L src df from rfl]
      rw [ih h']
      have hm : (df.rows.map fun r => survives L src df r) =
          df.rows.map fun r => survives (c :: L) src df r :=
        List.map_congr_left fun r _ => (survives_cons_ineffective src df c L hc r).symm
      rw [hm]

theorem pickRows_map (p : List RawValue → Bool) :
    ∀ l : List (List RawValue), pickRows l (l.map p) = l.filter p := by
  intro l
  induction l with
  | nil => rfl
  | cons r l ih =>
    by_cases h : p r = true <;>
      simp [pickRows, List.filter_cons, h, ih]

theorem maskAt_vec_map (f : List RawValue → Bool) (rows : List (List RawValue))
    (i : ℕ) (r : List RawValue) (h : rows.get? i = some r) :
    (rows.map f).getD i false = f r := by
  rw [List.getD_eq_getD_get?, List.get?_map, h]
  rfl

theorem colCheck_iff (src : SrcRow) (df : DF) (r : List RawValue) (c : String) :
    (colEffective src df c && colPred src df c r) = true ↔
      ∃ a b : ℚ, srcQ src c = some a ∧ cellQ df r c = some b ∧ a ≤ b := by
  constructor
  · intro h
    obtain ⟨he, hp⟩ := Bool.and_eq_true_iff.mp h
    cases hl : List.lookup c src with
    | none => rw [colEffective, hl] at he; cases he
    | some v =>
      rw [colPred, fval, hl] at hp
      cases v with
      | num a =>
        cases hcell : cellRaw df r c with
        | num b =>
          rw [hcell] at hp
          refine ⟨a, b, ?_, ?_, ?_⟩
          · rw [srcQ, hl]
          · rw [cellQ, hcell]
          · simpa [geB] using hp
        | rawStr s => rw [hcell] at hp; cases hp
        | null => rw [hcell] at hp; cases hp
      | rawStr s =>
        simp only [Option.getD_some] at hp
        cases hcell : cellRaw df r c <;> rw [hcell] at hp <;> cases hp
      | null =>
        simp only [Option.getD_some] at hp
        cases hcell : cellRaw df r c <;> rw [hcell] at hp <;> cases hp
  · rintro ⟨a, b, ha, hb, hab⟩
    have hl : List.lookup c src = some (RawValue.num a) := by
      rw [srcQ] at ha
      cases hl : List.lookup c src with
      | none => rw [hl] at ha; cases ha
      | some v =>
        rw [hl] at ha
        cases v with
        | num a' => cases ha; rfl
        | rawStr s => cases ha
        | null => cases ha
    have hcell : cellRaw df r c = RawValue.num b := by
      rw [cellQ] at hb
      cases hc : cellRaw df r c with
      | num b' => rw [hc] at hb; cases hb; rfl
      | rawStr s => rw [hc] at hb; cases hb
      | null => rw [hc] at hb; cases hb
    have hcont : df.cols.contains c = true := by
      cases hcont : df.cols.contains c with
      | false =>
        rw [cellRaw_of_not_contains df r c hcont] at hcell
        cases hcell
      | true => rfl
    rw [colEffective, colPred, fval, hl, hcell]
    simp [geB, hcont, hab, (contains_iff_mem df.cols c).mp hcont]

/-- C1: filter semantics of automatic matching.  For every normalized source
spec-vector and candidate table, row `i` of the table is selected by the mask
exactly when some comparison field has a known (numeric) value on both sides
and the candidate's value is at least the source's; a field unknown or absent
on either side contributes nothing. -/
theorem c1_filter_semantics (useCols : List String) (src : SrcRow) (df : DF)
    (i : ℕ) (r : List RawValue)
    (hsrc : ∀ c ∈ useCols, isNormal (fval src c) = true)
    (hdf : ∀ c ∈ useCols, ∀ r' ∈ df.rows, isNormal (cellRaw df r' c) = true)
    (hget : df.rows.get? i = some r) :
    maskAt (buildMask useCols src df) i = true ↔
      ∃ c ∈ useCols, ∃ a b : ℚ, srcQ src c = some a ∧ cellQ df r c = some b ∧ a ≤ b := by
  cases hany : useCols.any (fun c => colEffective src df c) with
  | false =>
    rw [buildMask_scalar useCols src df hany]
    simp only [maskAt]
    constructor
    · intro h; cases h
    · rintro ⟨c, hc, a, b, ha, hb, hab⟩
      exfalso
      have heff : colEffective src df c = true :=
        And.left (Bool.and_eq_true_iff.mp ((colCheck_iff src df r c).mpr ⟨a, b, ha, hb, hab⟩))
      have := List.any_eq_true.mpr ⟨c, hc, heff⟩
      rw [hany] at this
      cases this
  | true =>
    rw [buildMask_eq_vec useCols src df hany]
    simp only [maskAt]
    rw [maskAt_vec_map (fun r' => survives useCols src df r') df.rows i r hget]
    rw [survives, List.any_eq_true]
    constructor
    · rintro ⟨c, hc, hcc⟩
      exact ⟨c, hc, (colCheck_iff src df r c).mp hcc⟩
    · rintro ⟨c, hc, hx⟩
      exact ⟨c, hc, (colCheck_iff src df r c).mpr hx⟩

/-- C1 witness: a concrete instance of the filter-semantics theorem, at a
one-column table where the single candidate meets the source value. -/
theorem c1_witness :
    maskAt (buildMask [("A" : String)] [(("A" : String), RawValue.num 10)]
        { cols := [("A" : String)], rows := [[RawValue.num 12]] }) 0 = true ↔
      ∃ c ∈ [("A" : String)], ∃ a b : ℚ,
        srcQ [(("A" : String), RawValue.num 10)] c = some a ∧
        cellQ { cols := [("A" : String)], rows := [[RawValue.num 12]] } [RawValue.num 12] c = some b ∧
        a ≤ b :=
  c1_filter_semantics [("A" : String)] [(("A" : String), RawValue.num 10)]
    { cols := [("A" : String)], rows := [[RawValue.num 12]] } 0 [RawValue.num 12]
    (by decide) (by decide) rfl

/-- C4 (code bug): a source spec-vector whose single comparison field is
present but unknown, against a candidate table that lacks that column: every
comparison field of the source is unknown, yet the automatic logic raises
`KeyError: False` (the mask is still the Python scalar `False` when
`sophos_data[mask_any]` runs) instead of returning NoMatch. -/
theorem c4_keyerror_eval :
    selectBest [rankField] [(rankField, RawValue.null)]
      { cols := [modelField], rows := [[RawValue.rawStr ("XGS 107")]] } =
      AutoResult.keyError := by decide

/-- C8 (code bug): with an empty candidate table (no rows and no columns, the
state produced by a failed CSV load) every comparison field is skipped, the
mask stays the Python scalar `False`, and the filter raises `KeyError: False`
instead of returning NoMatch. -/
theorem c8_keyerror_eval :
    selectBest [("A" : String)] [(("A" : String), RawValue.num 5)]
      { cols := [], rows := [] } = AutoResult.keyError := by decide

/-! Lemmas for the ranking step. -/

theorem num_of_normal_notnull (v : RawValue) (h1 : isNormal v = true)
    (h2 : notnullB v = true) : ∃ q : ℚ, v = RawValue.num q := by
  cases v with
  | num q => exact ⟨q, rfl⟩
  | rawStr s => simp [isNormal] at h1
  | null => simp [notnullB] at h2

theorem foldMin_spec (ρ : List RawValue → RawValue) :
    ∀ (rest : List (List RawValue)) (best : List RawValue),
      (∀ x ∈ best :: rest, ∃ q : ℚ, ρ x = RawValue.num q) →
      ∃ q : ℚ,
        ρ (rest.foldl (fun b x => if ltB (ρ x) (ρ b) then x else b) best) =
          RawValue.num q ∧
        (∀ x ∈ best :: rest, ∀ q' : ℚ, ρ x = RawValue.num q' → q ≤ q') ∧
        (best :: rest).find? (fun x => decide (ρ x = RawValue.num q)) =
          some (rest.foldl (fun b x => if ltB (ρ x) (ρ b) then x else b) best) := by
  intro rest
  induction rest with
  | nil =>
    intro best hall
    obtain ⟨q, hq⟩ := hall best (List.mem_cons_self _ _)
    refine ⟨q, by simpa using hq, ?_, ?_⟩
    · intro x hx q' hx'
      rcases List.mem_cons.mp hx with rfl | hx2
      · rw [hq] at hx'
        obtain rfl : q = q' := by simpa using hx'
        exact le_refl q
      · cases hx2
    · simp [List.find?_cons, hq]
  | cons x rest ih =>
    intro best hall
    obtain ⟨qb, hqb⟩ := hall best (List.mem_cons_self _ _)
    obtain ⟨qx, hqx⟩ := hall x (by simp)
    rw [List.foldl_cons]
    by_cases hlt : ltB (ρ x) (ρ best) = true
    · have hxb : qx < qb := by
        rw [hqx, hqb] at hlt
        simpa [ltB] using hlt
      rw [if_pos hlt]
      obtain ⟨q, hq, hmin, hfind⟩ :=
        ih x (fun y hy => hall y (List.mem_cons_of_mem best hy))
      have hqqx : q ≤ qx := hmin x (List.mem_cons_self _ _) qx hqx
      have hqb' : q ≠ qb := ne_of_lt (lt_of_le_of_lt hqqx hxb)
      refine ⟨q, hq, ?_, ?_⟩
      · intro y hy q' hy'
        rcases List.mem_cons.mp hy with rfl | hy2
        · rw [hqb] at hy'
          obtain rfl : qb = q' := by simpa using hy'
          exact le_of_lt (lt_of_le_of_lt hqqx hxb)
        · exact hmin y hy2 q' hy'
      · have hpb : (decide (ρ best = RawValue.num q)) = false := by
          simp only [decide_eq_false_iff_not]
          rw [hqb]
          intro hcontra
          have hqbq : qb = q := by simpa using hcontra
          exact hqb' hqbq.symm
        simp only [List.find?_cons, hpb]
        exact hfind
    · have hxb : qb ≤ qx := by
        rw [hqx, hqb] at hlt
        simp only [ltB, decide_eq_true_eq] at hlt
        exact le_of_not_lt hlt
      rw [if_neg hlt]
      have hall' : ∀ y ∈ best :: rest, ∃ q : ℚ, ρ y = RawValue.num q := by
        intro y hy
        apply hall
        rcases List.mem_cons.mp hy with rfl | h2
        · exact List.mem_cons_self _ _
        · exact List.mem_cons_of_mem _ (List.mem_cons_of_mem _ h2)
      obtain ⟨q, hq, hmin, hfind⟩ := ih best hall'
      have hqqb : q ≤ qb := hmin best (List.mem_cons_self _ _) qb hqb
      refine ⟨q, hq, ?_, ?_⟩
      · intro y hy q' hy'
        rcases List.mem_cons.mp hy with rfl | hy2
        · exact hmin y (List.mem_cons_self _ _) q' hy'
        · rcases List.mem_cons.mp hy2 with rfl | hy3
          · rw [hqx] at hy'
            obtain rfl : qx = q' := by simpa using hy'
            exact le_trans hqqb hxb
          · exact hmin y (List.mem_cons_of_mem _ hy3) q' hy'
      · by_cases hpb : (decide (ρ best = RawValue.num q)) = true
        · have h1 : (best :: rest).find? (fun y => decide (ρ y = RawValue.num q)) =
              some best := by
            simp only [List.find?_cons, hpb]
          have h2 : some best =
              some (rest.foldl (fun b x => if ltB (ρ x) (ρ b) then x else b) best) :=
            h1.symm.trans hfind
          simp only [List.find?_cons, hpb]
          exact h2
        · have hpbf : (decide (ρ best = RawValue.num q)) = false := by
            cases h' : decide (ρ best = RawValue.num q)
            · rfl
            · exact absurd h' hpb
          have hfr : rest.find? (fun y => decide (ρ y = RawValue.num q)) =
              some (rest.foldl (fun b x => if ltB (ρ x) (ρ b) then x else b) best) := by
            have h3 := hfind
            simp only [List.find?_cons, hpbf] at h3
            exact h3
          have hpx : (decide (ρ x = RawValue.num q)) = false := by
            simp only [decide_eq_false_iff_not]
            rw [hqx]
            intro hxq
            have hq1 : qx = q := by simpa using hxq
            have hbq : qb ≤ q := hq1 ▸ hxb
            have hqb2 : qb = q := le_antisymm hbq hqqb
            apply hpb
            rw [hqb, hqb2]
            simp
          simp only [List.find?_cons, hpbf, hpx]
          exact hfr

/-- C2: ranking of survivors.  Whenever the automatic logic returns a
candidate, the rank field of that candidate is a known number `q`, `q` is
minimal among the rank values of the survivors whose rank field is known, and
the returned row is the first such survivor attaining `q` in original table
order (ties broken deterministically by first occurrence); a survivor with an
unknown rank field is never returned. -/
theorem c2_ranking (useCols : List String) (src : SrcRow) (df : DF)
    (r : List RawValue)
    (hrank : ∀ r' ∈ df.rows, isNormal (cellRaw df r' rankField) = true)
    (hfound : selectBest useCols src df = AutoResult.found r) :
    ∃ q : ℚ, cellRaw df r rankField = RawValue.num q ∧
      (∀ r' ∈ rankedSurvivors useCols src df, ∀ q' : ℚ,
        cellRaw df r' rankField = RawValue.num q' → q ≤ q') ∧
      (rankedSurvivors useCols src df).find?
          (fun r' => decide (cellRaw df r' rankField = RawValue.num q)) = some r := by
  unfold selectBest at hfound
  split at hfound
  · simp at hfound
  · next bs hbm =>
    split at hfound
    · simp at hfound
    · next f0 fs hpick =>
      split at hfound
      · split at hfound
        · simp at hfound
        · next r0 rest hsub =>
          next hrc =>
          simp only [AutoResult.found.injEq] at hfound
          have hany : useCols.any (fun c => colEffective src df c) = true := by
            cases h' : useCols.any (fun c => colEffective src df c)
            · rw [buildMask_scalar useCols src df h'] at hbm
              cases hbm
            · rfl
          have hbs : bs = df.rows.map fun r => survives useCols src df r := by
            rw [buildMask_eq_vec useCols src df hany] at hbm
            injection hbm with h
            exact h.symm
          have hfil : df.rows.filter (fun r => survives useCols src df r) = f0 :: fs := by
            rw [← pickRows_map (fun r => survives useCols src df r) df.rows, ← hbs]
            exact hpick
          have hrs : rankedSurvivors useCols src df = r0 :: rest := by
            rw [rankedSurvivors, hfil]
            exact hsub
          have hall : ∀ x ∈ r0 :: rest, ∃ q : ℚ, cellRaw df x rankField = RawValue.num q := by
            intro x hx
            rw [← hsub] at hx
            have hx1 := List.mem_filter.mp hx
            have hx2 : x ∈ df.rows := by
              have hx3 := hx1.1
              rw [← hfil] at hx3
              exact (List.mem_filter.mp hx3).1
            exact num_of_normal_notnull _ (hrank x hx2) hx1.2
          obtain ⟨q, hq, hmin, hfind⟩ :=
            foldMin_spec (fun x => cellRaw df x rankField) rest r0 hall
          refine ⟨q, ?_, ?_, ?_⟩
          · rw [← hfound]
            exact hq
          · rw [hrs]
            exact hmin
          · rw [hrs, ← hfound]
            exact hfind
      · simp at hfound

/-- C2 witness: the specification's worked example.  Source value 10 on field
A; candidates X (A=5, rank 5), Y (A=12, rank 8), Z (A=20, rank 3); survivors
are Y and Z and the automatic logic returns Z, whose rank 3 is minimal and
first-attained among ranked survivors. -/
theorem c2_witness :
    ∃ q : ℚ,
      cellRaw
          { cols := [modelField, ("A" : String), rankField],
            rows := [[RawValue.rawStr ("X"), RawValue.num 5, RawValue.num 5],
                     [RawValue.rawStr ("Y"), RawValue.num 12, RawValue.num 8],
                     [RawValue.rawStr ("Z"), RawValue.num 20, RawValue.num 3]] }
          [RawValue.rawStr ("Z"), RawValue.num 20, RawValue.num 3] rankField =
        RawValue.num q ∧
      (∀ r' ∈ rankedSurvivors [("A" : String)] [(("A" : String), RawValue.num 10)]
          { cols := [modelField, ("A" : String), rankField],
            rows := [[RawValue.rawStr ("X"), RawValue.num 5, RawValue.num 5],
                     [RawValue.rawStr ("Y"), RawValue.num 12, RawValue.num 8],
                     [RawValue.rawStr ("Z"), RawValue.num 20, RawValue.num 3]] },
        ∀ q' : ℚ,
          cellRaw
              { cols := [modelField, ("A" : String), rankField],
                rows := [[RawValue.rawStr ("X"), RawValue.num 5, RawValue.num 5],
                         [RawValue.rawStr ("Y"), RawValue.num 12, RawValue.num 8],
                         [RawValue.rawStr ("Z"), RawValue.num 20, RawValue.num 3]] }
              r' rankField = RawValue.num q' → q ≤ q') ∧
      (rankedSurvivors [("A" : String)] [(("A" : String), RawValue.num 10)]
          { cols := [modelField, ("A" : String), rankField],
            rows := [[RawValue.rawStr ("X"), RawValue.num 5, RawValue.num 5],
                     [RawValue.rawStr ("Y"), RawValue.num 12, RawValue.num 8],
                     [RawValue.rawStr ("Z"), RawValue.num 20, RawValue.num 3]] }).find?
          (fun r' => decide (cellRaw
              { cols := [modelField, ("A" : String), rankField],
                rows := [[RawValue.rawStr ("X"), RawValue.num 5, RawValue.num 5],
                         [RawValue.rawStr ("Y"), RawValue.num 12, RawValue.num 8],
                         [RawValue.rawStr ("Z"), RawValue.num 20, RawValue.num 3]] }
              r' rankField = RawValue.num q)) =
        some [RawValue.rawStr ("Z"), RawValue.num 20, RawValue.num 3] :=
  c2_ranking [("A" : String)] [(("A" : String), RawValue.num 10)]
    { cols := [modelField, ("A" : String), rankField],
      rows := [[RawValue.rawStr ("X"), RawValue.num 5, RawValue.num 5],
               [RawValue.rawStr ("Y"), RawValue.num 12, RawValue.num 8],
               [RawValue.rawStr ("Z"), RawValue.num 20, RawValue.num 3]] }
    [RawValue.rawStr ("Z"), RawValue.num 20, RawValue.num 3]
    (by decide) (by decide)

/-! The report builder: C5. -/

theorem format1_onefifty : format1 (150 : ℚ) = ("150.0") := by
  unfold format1
  have habs : |(150 : ℚ)| * 10 = 1500 := by norm_num
  rw [habs]
  have hfl : ⌊(1500 : ℚ)⌋ = 1500 := by norm_num
  have hrhe : roundHalfEven (1500 : ℚ) = 1500 := by
    unfold roundHalfEven
    rw [hfl]
    rw [if_pos (by norm_num)]
  rw [hrhe, if_neg (by norm_num)]
  decide

/-- C5: report builder per-field rule.  Every entry of the matching table
whose values are normalized satisfies: when the source value is a known
non-zero number and the candidate value is a known number, the displayed cell
is the ratio `candidate / source * 100` rendered to one decimal place with a
trailing percent sign; when the source is unknown or zero or the candidate is
unknown, the literal "N/A" is displayed.  In particular source 50 and
candidate 75 display exactly "150.0%". -/
theorem c5_report_rule :
    (∀ (cols : List String) (vrow srow : SrcRow) (c : String) (v s : RawValue)
        (out : String),
      (c, v, s, out) ∈ build_matching_table cols vrow srow →
      isNormal v = true → isNormal s = true →
      ((∀ a b : ℚ, v = RawValue.num a → s = RawValue.num b → a ≠ 0 →
          out = format1 (b / a * 100) ++ "%") ∧
        ((v = RawValue.null ∨ v = RawValue.num 0 ∨ s = RawValue.null) →
          out = "N/A"))) ∧
    build_matching_table [rankField] [(rankField, RawValue.num 50)]
        [(rankField, RawValue.num 75)] =
      [(rankField, RawValue.num 50, RawValue.num 75, ("150.0%"))] := by
  constructor
  · intro cols vrow srow c v s out hmem hnv hns
    obtain ⟨c', hc', heq⟩ := List.mem_map.mp hmem
    simp only [Prod.mk.injEq] at heq
    obtain ⟨rfl, hv, hs, hout⟩ := heq
    subst hv
    subst hs
    subst hout
    constructor
    · intro a b hva hsb hane
      rw [hva, hsb]
      simp [ratioCell, notnullB, neq0B, asQ, hane]
    · intro hcase
      rcases hcase with hv0 | hv0 | hs0
      · rw [hv0]
        simp [ratioCell, notnullB]
      · rw [hv0]
        simp [ratioCell, notnullB, neq0B]
      · rw [hs0]
        simp [ratioCell, notnullB]
  · have hvget : rowGet [(rankField, RawValue.num 50)] rankField = RawValue.num 50 := by decide
    have hsget : rowGet [(rankField, RawValue.num 75)] rankField = RawValue.num 75 := by decide
    have hratio : ratioCell (RawValue.num 50) (RawValue.num 75) = ("150.0%") := by
      have h1 : ratioCell (RawValue.num 50) (RawValue.num 75) =
          format1 ((75 : ℚ) / 50 * 100) ++ "%" := by
        simp [ratioCell, notnullB, neq0B, asQ]
      have h2 : (75 : ℚ) / 50 * 100 = 150 := by norm_num
      rw [h1, h2, format1_onefifty]
      rfl
    rw [build_matching_table, List.map_cons, List.map_nil, hvget, hsget, hratio]

/-- C5 witness: a field whose source value is unknown displays "N/A",
obtained by instantiating the per-field report rule. -/
theorem c5_witness : ratioCell RawValue.null (RawValue.num 3) = "N/A" :=
  ((c5_report_rule.1 [("A" : String)] [(("A" : String), RawValue.null)]
      [(("A" : String), RawValue.num 3)] ("A") RawValue.null (RawValue.num 3)
      (ratioCell RawValue.null (RawValue.num 3)) (by decide) (by decide) (by decide)).2
    (Or.inl rfl))

/-! Manual mode: C6. -/

theorem find?_unique {α : Type} (p : α → Bool) :
    ∀ (l : List α) (r : α), r ∈ l → p r = true →
      (∀ r' ∈ l, p r' = true → r' = r) → l.find? p = some r := by
  intro l
  induction l with
  | nil => intro r hr _ _; cases hr
  | cons x xs ih =>
    intro r hr hp huniq
    by_cases hx : p x = true
    · have hxr : x = r := huniq x (List.mem_cons_self _ _) hx
      subst hxr
      simp [List.find?_cons, hx]
    · have hxf : p x = false := by
        cases h' : p x
        · rfl
        · exact absurd h' hx
      have hr' : r ∈ xs := by
        rcases List.mem_cons.mp hr with rfl | h2
        · exact absurd hp hx
        · exact h2
      simp only [List.find?_cons, hxf]
      exact ih r hr' hp fun r' h' hp' => huniq r' (List.mem_cons_of_mem _ h') hp'

/-- C6: manual-mode lookup.  When the Model column exists: if no row's Model
equals the chosen id, the lookup fails (returns none — never a fallback to
automatic mode or an arbitrary row); if exactly one row's Model equals the id,
that row is returned whatever its other fields hold. -/
theorem c6_manual_lookup :
    (∀ (df : DF) (mid : String), df.cols.contains modelField = true →
      (∀ r ∈ df.rows, eqModelB (cellRaw df r modelField) mid = false) →
      selectManual df mid = none) ∧
    (∀ (df : DF) (mid : String) (r : List RawValue),
      df.cols.contains modelField = true →
      r ∈ df.rows → eqModelB (cellRaw df r modelField) mid = true →
      (∀ r' ∈ df.rows, eqModelB (cellRaw df r' modelField) mid = true → r' = r) →
      selectManual df mid = some r) := by
  constructor
  · intro df mid hcol hnone
    unfold selectManual
    rw [if_pos hcol, List.find?_eq_none]
    intro x hx
    rw [hnone x hx]
    simp
  · intro df mid r hcol hr hp huniq
    unfold selectManual
    rw [if_pos hcol]
    exact find?_unique _ df.rows r hr hp huniq

/-- C6 witness: in a two-model table, looking up an absent id fails and
looking up a present id returns its unique row. -/
theorem c6_witness :
    selectManual
        { cols := [modelField],
          rows := [[RawValue.rawStr ("X")], [RawValue.rawStr ("Y")]] } ("Q") = none ∧
    selectManual
        { cols := [modelField],
          rows := [[RawValue.rawStr ("X")], [RawValue.rawStr ("Y")]] } ("Y") =
      some [RawValue.rawStr ("Y")] :=
  ⟨c6_manual_lookup.1
      { cols := [modelField], rows := [[RawValue.rawStr ("X")], [RawValue.rawStr ("Y")]] }
      ("Q") (by decide) (by decide),
   c6_manual_lookup.2
      { cols := [modelField], rows := [[RawValue.rawStr ("X")], [RawValue.rawStr ("Y")]] }
      ("Y") [RawValue.rawStr ("Y")] (by decide) (by decide) (by decide) (by decide)⟩

/-! Normalization of tables: C9 (frame) and C10 (type invariant). -/

theorem applyAt_get? (f : RawValue → RawValue) :
    ∀ (r : List RawValue) (i j : ℕ),
      (applyAt i f r).get? j = if j = i then (r.get? j).map f else r.get? j := by
  intro r
  induction r with
  | nil =>
    intro i j
    cases i <;> simp [applyAt]
  | cons v r ih =>
    intro i j
    cases i with
    | zero =>
      cases j with
      | zero => simp [applyAt]
      | succ m => simp [applyAt]
    | succ n =>
      cases j with
      | zero => simp [applyAt]
      | succ m =>
        have hred : (applyAt (n + 1) f (v :: r)).get? (m + 1) = (applyAt n f r).get? m := rfl
        rw [hred, ih n m]
        by_cases h : m = n
        · subst h
          simp
        · rw [if_neg h, if_neg (by omega)]
          rfl

theorem cellRaw_eq_of_cols (df df' : DF) (r : List RawValue) (c : String)
    (h : df.cols = df'.cols) : cellRaw df r c = cellRaw df' r c := by
  rw [cellRaw, cellRaw, h]

theorem pacStep_cols (df : DF) (c : String) : (pacStep df c).cols = df.cols := by
  rw [pacStep]
  split <;> rfl

theorem parse_cols : ∀ (L : List String) (df : DF),
    (parse_and_convert df L).cols = df.cols := by
  intro L
  induction L with
  | nil => intro df; rfl
  | cons c L ih =>
    intro df
    rw [parse_and_convert, List.foldl_cons,
      show L.foldl pacStep (pacStep df c) = parse_and_convert (pacStep df c) L from rfl]
    rw [ih (pacStep df c), pacStep_cols]

theorem pacStep_rows_length (df : DF) (c : String) :
    (pacStep df c).rows.length = df.rows.length := by
  rw [pacStep]
  split
  · simp [applyCol]
  · rfl

theorem parse_rows_length : ∀ (L : List String) (df : DF),
    (parse_and_convert df L).rows.length = df.rows.length := by
  intro L
  induction L with
  | nil => intro df; rfl
  | cons c L ih =>
    intro df
    rw [parse_and_convert, List.foldl_cons,
      show L.foldl pacStep (pacStep df c) = parse_and_convert (pacStep df c) L from rfl]
    rw [ih (pacStep df c), pacStep_rows_length]

theorem applyCol_cell_preserved (f : RawValue → RawValue) (df : DF) (c c0 : String)
    (j k : ℕ) (hj : df.cols.get? j = some c0) (hne : c ≠ c0) :
    ((applyCol f c df).rows.get? k).bind (fun r => r.get? j) =
      (df.rows.get? k).bind (fun r => r.get? j) := by
  have hA : (applyCol f c df).rows = df.rows.map fun r =>
      match colIdx df.cols c with
      | some i => applyAt i f r
      | none => r := rfl
  rw [hA, List.get?_map]
  cases hrow : df.rows.get? k with
  | none => rfl
  | some r =>
    simp only [Option.map_some', Option.some_bind]
    cases hci : colIdx df.cols c with
    | none => rfl
    | some i =>
      rw [applyAt_get? f r i j, if_neg ?_]
      intro hji
      subst hji
      rw [colIdx_get df.cols c j hci] at hj
      exact hne (Option.some_inj.mp hj)

theorem pacStep_cell_preserved (df : DF) (c c0 : String) (j k : ℕ)
    (hj : df.cols.get? j = some c0) (hne : c ≠ c0) :
    ((pacStep df c).rows.get? k).bind (fun r => r.get? j) =
      (df.rows.get? k).bind (fun r => r.get? j) := by
  rw [pacStep]
  split
  · rw [applyCol_cell_preserved to_numeric_coerce (applyCol extract_max_throughput c df)
      c c0 j k hj hne]
    exact applyCol_cell_preserved extract_max_throughput df c c0 j k hj hne
  · rfl

theorem parse_cell_preserved : ∀ (L : List String) (df : DF) (j k : ℕ) (c0 : String),
    df.cols.get? j = some c0 → c0 ∉ L →
    ((parse_and_convert df L).rows.get? k).bind (fun r => r.get? j) =
      (df.rows.get? k).bind (fun r => r.get? j) := by
  intro L
  induction L with
  | nil => intro df j k c0 _ _; rfl
  | cons c L ih =>
    intro df j k c0 hj hnotin
    rw [parse_and_convert, List.foldl_cons,
      show L.foldl pacStep (pacStep df c) = parse_and_convert (pacStep df c) L from rfl]
    have hne : c ≠ c0 := fun h => hnotin (h ▸ List.mem_cons_self c L)
    have hj' : (pacStep df c).cols.get? j = some c0 := by
      rw [pacStep_cols]
      exact hj
    rw [ih (pacStep df c) j k c0 hj' fun h => hnotin (List.mem_cons_of_mem c h)]
    exact pacStep_cell_preserved df c c0 j k hj hne

/-- C9: normalization frame condition.  `parse_and_convert` never changes the
column list (no column is invented for a listed field absent from the table),
never changes the number of rows, and leaves every cell untouched whose
column name is not in the given field list. -/
theorem c9_frame (df : DF) (L : List String) :
    (parse_and_convert df L).cols = df.cols ∧
    (parse_and_convert df L).rows.length = df.rows.length ∧
    ∀ (k j : ℕ) (c0 : String), df.cols.get? j = some c0 → c0 ∉ L →
      ((parse_and_convert df L).rows.get? k).bind (fun r => r.get? j) =
        (df.rows.get? k).bind (fun r => r.get? j) :=
  ⟨parse_cols L df, parse_rows_length L df,
   fun k j c0 hj hn => parse_cell_preserved L df j k c0 hj hn⟩

/-- C9 witness: normalizing the field list ["A"] leaves the Model cell of a
table untouched, by instantiating the frame theorem. -/
theorem c9_witness :
    ((parse_and_convert
        { cols := [modelField, ("A" : String)],
          rows := [[RawValue.rawStr ("X"), RawValue.rawStr ("1/2")]] }
        [("A" : String)]).rows.get? 0).bind (fun r => r.get? 0) =
      some (RawValue.rawStr ("X")) :=
  ((c9_frame
      { cols := [modelField, ("A" : String)],
        rows := [[RawValue.rawStr ("X"), RawValue.rawStr ("1/2")]] }
      [("A" : String)]).2.2 0 0 modelField rfl (by decide)).trans (by decide)

theorem to_numeric_coerce_normal (v : RawValue) :
    isNormal (to_numeric_coerce v) = true := by
  cases v <;> rfl

theorem pacStep_cell_normal (df : DF) (c : String) (hc : c ∈ df.cols) :
    ∀ r' ∈ (pacStep df c).rows, isNormal (cellRaw (pacStep df c) r' c) = true := by
  intro r' hr'
  obtain ⟨i, hi⟩ : ∃ i, colIdx df.cols c = some i := by
    cases hci : colIdx df.cols c with
    | none => exact absurd hc ((colIdx_eq_none _ _).mp hci)
    | some i => exact ⟨i, rfl⟩
  rw [pacStep, if_pos ((contains_iff_mem _ _).mpr hc)] at hr' ⊢
  rw [cellRaw_eq_of_cols
    (applyCol to_numeric_coerce c (applyCol extract_max_throughput c df)) df r' c rfl]
  simp only [applyCol, List.mem_map] at hr'
  obtain ⟨r1, hr1, hr1eq⟩ := hr'
  obtain ⟨r0, hr0, hr0eq⟩ := hr1
  simp only [hi] at hr1eq hr0eq
  subst hr0eq
  subst hr1eq
  simp only [cellRaw, hi, List.getD_eq_getD_get?, applyAt_get?, if_pos rfl]
  cases hv : r0.get? i with
  | none => rfl
  | some v =>
    simp only [Option.map_some', Option.getD_some]
    exact to_numeric_coerce_normal (extract_max_throughput v)

theorem applyCol_cell_normal_preserved (f : RawValue → RawValue) (df : DF)
    (c c' : String)
    (h : ∀ r ∈ df.rows, isNormal (cellRaw df r c) = true)
    (hf : ∀ v, isNormal v = true → isNormal (f v) = true) :
    ∀ r' ∈ (applyCol f c' df).rows, isNormal (cellRaw df r' c) = true := by
  intro r' hr'
  simp only [applyCol, List.mem_map] at hr'
  obtain ⟨r0, hr0, hr0eq⟩ := hr'
  cases hci : colIdx df.cols c' with
  | none =>
    simp only [hci] at hr0eq
    subst hr0eq
    exact h r0 hr0
  | some i' =>
    simp only [hci] at hr0eq
    subst hr0eq
    cases hcc : colIdx df.cols c with
    | none =>
      simp only [cellRaw, hcc]
      rfl
    | some i =>
      simp only [cellRaw, hcc, List.getD_eq_getD_get?, applyAt_get?]
      by_cases hii : i = i'
      · rw [if_pos hii]
        cases hv : r0.get? i with
        | none => rfl
        | some v =>
          simp only [Option.map_some', Option.getD_some]
          apply hf
          have hnv := h r0 hr0
          simp only [cellRaw, hcc, List.getD_eq_getD_get?, hv] at hnv
          exact hnv
      · rw [if_neg hii]
        have hnv := h r0 hr0
        simp only [cellRaw, hcc, List.getD_eq_getD_get?] at hnv
        exact hnv

theorem extract_normal_preserved (v : RawValue) (h : isNormal v = true) :
    isNormal (extract_max_throughput v) = true := by
  cases v with
  | num q => exact h
  | rawStr s => simp [isNormal] at h
  | null => exact h

theorem pacStep_preserves_normal (df : DF) (c c' : String)
    (h : ∀ r ∈ df.rows, isNormal (cellRaw df r c) = true) :
    ∀ r' ∈ (pacStep df c').rows, isNormal (cellRaw (pacStep df c') r' c) = true := by
  intro r' hr'
  rw [cellRaw_eq_of_cols _ df _ c (pacStep_cols df c')]
  rw [pacStep] at hr'
  split at hr'
  · have h1 : ∀ r ∈ (applyCol extract_max_throughput c' df).rows,
        isNormal (cellRaw df r c) = true :=
      applyCol_cell_normal_preserved extract_max_throughput df c c' h
        extract_normal_preserved
    have h1' : ∀ r ∈ (applyCol extract_max_throughput c' df).rows,
        isNormal (cellRaw (applyCol extract_max_throughput c' df) r c) = true := by
      intro r hr
      rw [cellRaw_eq_of_cols (applyCol extract_max_throughput c' df) df r c rfl]
      exact h1 r hr
    have h2 : ∀ r ∈ (applyCol to_numeric_coerce c'
        (applyCol extract_max_throughput c' df)).rows,
        isNormal (cellRaw (applyCol extract_max_throughput c' df) r c) = true :=
      applyCol_cell_normal_preserved to_numeric_coerce
        (applyCol extract_max_throughput c' df) c c' h1'
        (fun v _ => to_numeric_coerce_normal v)
    have h3 := h2 r' hr'
    rw [cellRaw_eq_of_cols (applyCol extract_max_throughput c' df) df r' c rfl] at h3
    exact h3
  · exact h r' hr'

theorem parse_preserves_normal : ∀ (L : List String) (df : DF) (c : String),
    (∀ r ∈ df.rows, isNormal (cellRaw df r c) = true) →
    ∀ r' ∈ (parse_and_convert df L).rows,
      isNormal (cellRaw (parse_and_convert df L) r' c) = true := by
  intro L
  induction L with
  | nil => intro df c h; exact h
  | cons c1 L ih =>
    intro df c h
    rw [parse_and_convert, List.foldl_cons,
      show L.foldl pacStep (pacStep df c1) = parse_and_convert (pacStep df c1) L from rfl]
    exact ih (pacStep df c1) c (pacStep_preserves_normal df c c1 h)

theorem c10_aux : ∀ (L : List String) (df : DF) (c : String), c ∈ L → c ∈ df.cols →
    ∀ r' ∈ (parse_and_convert df L).rows,
      isNormal (cellRaw (parse_and_convert df L) r' c) = true := by
  intro L
  induction L with
  | nil => intro df c h; cases h
  | cons c1 L ih =>
    intro df c hcL hcc
    rw [parse_and_convert, List.foldl_cons,
      show L.foldl pacStep (pacStep df c1) = parse_and_convert (pacStep df c1) L from rfl]
    by_cases hmem : c ∈ L
    · exact ih (pacStep df c1) c hmem (by rw [pacStep_cols]; exact hcc)
    · have hc1 : c = c1 := by
        rcases List.mem_cons.mp hcL with h | h
        · exact h
        · exact absurd h hmem
      subst hc1
      exact parse_preserves_normal L (pacStep df c) c (pacStep_cell_normal df c hcc)

/-- C10: post-normalization type invariant.  After `parse_and_convert`, every
cell of a column that is both listed and present in the table is a number or
the unknown marker — never a residual string. -/
theorem c10_normalized_columns (df : DF) (L : List String) (c : String)
    (hcL : c ∈ L) (hcc : c ∈ df.cols) :
    ∀ r' ∈ (parse_and_convert df L).rows,
      isNormal (cellRaw (parse_and_convert df L) r' c) = true :=
  c10_aux L df c hcL hcc

/-- C10 witness: normalizing the listed column of a one-row table produces a
numeric cell, by instantiating the type-invariant theorem. -/
theorem c10_witness :
    isNormal (cellRaw
        (parse_and_convert
          { cols := [("A" : String)], rows := [[RawValue.rawStr ("5 / 7")]] }
          [("A" : String)])
        [RawValue.num 7] ("A")) = true :=
  c10_normalized_columns
    { cols := [("A" : String)], rows := [[RawValue.rawStr ("5 / 7")]] }
    [("A" : String)] ("A") (by decide) (by decide) [RawValue.num 7] (by decide)

end FirewallSpec
